import Mathlib

/-!
# Verification of a Bowyer–Watson Delaunay triangulation engine

Shallow embedding of the triangulation engine in `src/main.cpp`:
the geometry primitives (`Point`, `Edge`, `Triangle`), the circumcircle
predicate `inCircumcircle`, and the incremental engine
`delaunayTriangulation` (super-triangle bootstrap, per-point insertion with
bad-triangle removal and cavity re-triangulation, final pruning).

Coordinates are modelled as rationals (`ℚ`): the source computes with IEEE
doubles, and the claims settled here concern the exact arithmetic structure
of the algorithm, not rounding behaviour.  The source reads `points[0]`
without a bounds check, so the embedded engine returns `Option`: `none`
models the out-of-bounds read on an empty input (undefined behaviour in the
source), `some` the normal return.
-/

/-- A 2D point, `struct Point` from the source.  Equality is exact
coordinate equality, as the source's `operator==`. -/
structure Point where
  x : ℚ
  y : ℚ
deriving DecidableEq

/-- An edge, `struct Edge` from the source: an ordered record of two
points whose `operator==` below treats it as an unordered pair. -/
structure Edge where
  p1 : Point
  p2 : Point
deriving DecidableEq

/-- A triangle, `struct Triangle` from the source: three points `a b c`. -/
structure Triangle where
  a : Point
  b : Point
  c : Point
deriving DecidableEq

/-- `Edge::operator==` from the source: two edges are equal iff their
endpoint sets agree regardless of direction. -/
def edgeEqB (e1 e2 : Edge) : Bool :=
  decide ((e1.p1 = e2.p1 ∧ e1.p2 = e2.p2) ∨ (e1.p1 = e2.p2 ∧ e1.p2 = e2.p1))

/-- The determinant computed inside `inCircumcircle` in the source, on the
coordinates of the triangle's vertices translated by subtracting `p`. -/
def circumDet (p : Point) (t : Triangle) : ℚ :=
  let ax := t.a.x - p.x
  let ay := t.a.y - p.y
  let bx := t.b.x - p.x
  let by' := t.b.y - p.y
  let cx := t.c.x - p.x
  let cy := t.c.y - p.y
  (ax * ax + ay * ay) * (bx * cy - cx * by') -
    (bx * bx + by' * by') * (ax * cy - cx * ay) +
    (cx * cx + cy * cy) * (ax * by' - bx * ay)

/-- The absolute tolerance `1e-9` used by the source's circumcircle test. -/
def circumEps : ℚ := 1 / 1000000000

/-- `inCircumcircle` from the source: true iff the determinant exceeds the
absolute tolerance `1e-9`. -/
def inCircumcircle (p : Point) (t : Triangle) : Bool :=
  decide (circumDet p t > circumEps)

/-- The first scan of the insertion loop: the triangles of the current
triangulation whose circumcircle contains the point (the "bad" triangles),
in order. -/
def badTrianglesOf (triangles : List Triangle) (point : Point) : List Triangle :=
  triangles.filter fun t => inCircumcircle point t

/-- The working edge list (`polygon` in the source): the three edges
`(a,b) (b,c) (c,a)` of each bad triangle, pushed in order. -/
def polygonOf : List Triangle → List Edge
  | [] => []
  | t :: rest => ⟨t.a, t.b⟩ :: ⟨t.b, t.c⟩ :: ⟨t.c, t.a⟩ :: polygonOf rest

/-- The `remove_if` of the insertion loop: a triangle is erased iff some
flagged bad triangle matches it slot by slot (`t.a == bad.a && t.b == bad.b
&& t.c == bad.c`); the survivors keep their order. -/
def removeBadTriangles (triangles badTriangles : List Triangle) : List Triangle :=
  triangles.filter fun t =>
    decide (¬ ∃ bad ∈ badTriangles, t.a = bad.a ∧ t.b = bad.b ∧ t.c = bad.c)

/-- The unique-edge scan of the source: the edge at index `i` of the working
list is kept iff no other index `j` holds an edge equal to it under
`Edge::operator==`; kept edges retain their order. -/
def uniqueEdges (polygon : List Edge) : List Edge :=
  (List.finRange polygon.length).filterMap fun i =>
    if ∀ j : Fin polygon.length, i = j ∨ edgeEqB (polygon.get i) (polygon.get j) = false
    then some (polygon.get i) else none

/-- One iteration of the insertion loop of `delaunayTriangulation`: flag the
bad triangles, collect their edges, erase them, and fan the new point to the
unique (cavity-boundary) edges. -/
def insertPoint (triangles : List Triangle) (point : Point) : List Triangle :=
  let badTriangles := badTrianglesOf triangles point
  let polygon := polygonOf badTriangles
  removeBadTriangles triangles badTriangles ++
    (uniqueEdges polygon).map fun e => ⟨e.p1, e.p2, point⟩

/-- The bounding-box fold of the source, starting from `points[0].x` and
scanning every point. -/
def minXOf (p0 : Point) (points : List Point) : ℚ :=
  points.foldl (fun m p => min m p.x) p0.x

/-- Minimum y of the bounding box scan. -/
def minYOf (p0 : Point) (points : List Point) : ℚ :=
  points.foldl (fun m p => min m p.y) p0.y

/-- Maximum x of the bounding box scan. -/
def maxXOf (p0 : Point) (points : List Point) : ℚ :=
  points.foldl (fun m p => max m p.x) p0.x

/-- Maximum y of the bounding box scan. -/
def maxYOf (p0 : Point) (points : List Point) : ℚ :=
  points.foldl (fun m p => max m p.y) p0.y

/-- `deltaMax = max(dx, dy)` of the source. -/
def deltaMaxOf (p0 : Point) (points : List Point) : ℚ :=
  max (maxXOf p0 points - minXOf p0 points) (maxYOf p0 points - minYOf p0 points)

/-- The bounding-box center x, `midX` of the source. -/
def midXOf (p0 : Point) (points : List Point) : ℚ :=
  (minXOf p0 points + maxXOf p0 points) / 2

/-- The bounding-box center y, `midY` of the source. -/
def midYOf (p0 : Point) (points : List Point) : ℚ :=
  (minYOf p0 points + maxYOf p0 points) / 2

/-- The super-triangle construction of the source.  The source reads
`points[0]` with no emptiness check — an out-of-bounds read on an empty
vector — modelled here by returning `none` on `[]`. -/
def superTriangleOf : List Point → Option Triangle
  | [] => none
  | p0 :: rest =>
    let points := p0 :: rest
    some ⟨⟨midXOf p0 points - 20 * deltaMaxOf p0 points,
           midYOf p0 points - deltaMaxOf p0 points⟩,
          ⟨midXOf p0 points + 20 * deltaMaxOf p0 points,
           midYOf p0 points - deltaMaxOf p0 points⟩,
          ⟨midXOf p0 points,
           midYOf p0 points + 20 * deltaMaxOf p0 points⟩⟩

/-- The final pruning predicate of the source: the triangle shares a vertex
(by exact point equality) with a corner of the super-triangle. -/
def sharesSuperVertex (t st : Triangle) : Bool :=
  decide (t.a = st.a ∨ t.b = st.a ∨ t.c = st.a ∨
          t.a = st.b ∨ t.b = st.b ∨ t.c = st.b ∨
          t.a = st.c ∨ t.b = st.c ∨ t.c = st.c)

/-- `delaunayTriangulation` from the source: seed with the super-triangle,
insert the points in input order, then prune every triangle sharing a vertex
with the super-triangle.  `none` models the source's out-of-bounds read of
`points[0]` on an empty input. -/
def delaunayTriangulation (points : List Point) : Option (List Triangle) :=
  match superTriangleOf points with
  | none => none
  | some st =>
    let triangles := points.foldl insertPoint [st]
    some (triangles.filter fun t => !sharesSuperVertex t st)

/-- Explicit state-passing form of the engine: the source receives the point
vector by mutable reference, so the embedding threads the caller's list
through the run and returns it alongside the result, exactly as the body
(which contains no store to `points`) leaves it. -/
def delaunayTriangulationRef (points : List Point) :
    List Point × Option (List Triangle) :=
  match superTriangleOf points with
  | none => (points, none)
  | some st =>
    let run := points.foldl
      (fun (s : List Point × List Triangle) point => (s.1, insertPoint s.2 point))
      (points, [st])
    (run.1, some (run.2.filter fun t => !sharesSuperVertex t st))

/-! ## Spec-side formulations -/

/-- Squared norm `|X|²` of a translated coordinate pair, from the spec's
determinant formula. -/
def normSq (x y : ℚ) : ℚ := x ^ 2 + y ^ 2

/-- 2D cross product `X×Y` of two translated coordinate pairs, from the
spec's determinant formula. -/
def cross2 (x1 y1 x2 y2 : ℚ) : ℚ := x1 * y2 - x2 * y1

/-- The spec's determinant formula, written as the spec states it:
`det = |A|²(B×C) − |B|²(A×C) + |C|²(A×B)` on the coordinates of `A`, `B`,
`C` translated by subtracting `P`. -/
def circumDetSpec (p : Point) (t : Triangle) : ℚ :=
  normSq (t.a.x - p.x) (t.a.y - p.y) *
      cross2 (t.b.x - p.x) (t.b.y - p.y) (t.c.x - p.x) (t.c.y - p.y) -
    normSq (t.b.x - p.x) (t.b.y - p.y) *
      cross2 (t.a.x - p.x) (t.a.y - p.y) (t.c.x - p.x) (t.c.y - p.y) +
    normSq (t.c.x - p.x) (t.c.y - p.y) *
      cross2 (t.a.x - p.x) (t.a.y - p.y) (t.b.x - p.x) (t.b.y - p.y)

/-- Strict interior of a triangle, stated for either winding: the three
edge cross products all carry the same strict sign.  For a degenerate
triangle every cross product is zero, so no point is strictly inside. -/
def strictlyInside (t : Triangle) (p : Point) : Prop :=
  (0 < (t.b.x - t.a.x) * (p.y - t.a.y) - (t.b.y - t.a.y) * (p.x - t.a.x) ∧
   0 < (t.c.x - t.b.x) * (p.y - t.b.y) - (t.c.y - t.b.y) * (p.x - t.b.x) ∧
   0 < (t.a.x - t.c.x) * (p.y - t.c.y) - (t.a.y - t.c.y) * (p.x - t.c.x)) ∨
  ((t.b.x - t.a.x) * (p.y - t.a.y) - (t.b.y - t.a.y) * (p.x - t.a.x) < 0 ∧
   (t.c.x - t.b.x) * (p.y - t.b.y) - (t.c.y - t.b.y) * (p.x - t.b.x) < 0 ∧
   (t.a.x - t.c.x) * (p.y - t.c.y) - (t.a.y - t.c.y) * (p.x - t.c.x) < 0)

lemma circumDet_eq_spec (p : Point) (t : Triangle) :
    circumDet p t = circumDetSpec p t := by
  simp only [circumDet, circumDetSpec, normSq, cross2]
  ring

/-! ## Claim theorems (first batch) -/

/-- C2: for every query point `p` and triangle `t`, `inCircumcircle p t`
returns true iff `det > 1e-9`, where `det` is the spec's formula
`|A|²(B×C) − |B|²(A×C) + |C|²(A×B)` on the coordinates translated by
subtracting `p`; the embedded function is pure. -/
theorem inCircumcircle_iff_spec_det (p : Point) (t : Triangle) :
    inCircumcircle p t = true ↔ circumDetSpec p t > 1 / 1000000000 := by
  simp only [inCircumcircle, decide_eq_true_eq, circumDet_eq_spec, circumEps]

/-- C10: swapping two vertices of the triangle argument negates the
determinant of `inCircumcircle` (shown for all three transpositions), so
for every `p a b c` at most one of `inCircumcircle p ⟨a,b,c⟩` and
`inCircumcircle p ⟨b,a,c⟩` returns true. -/
theorem circumDet_swap_antisymm (p a b c : Point) :
    circumDet p ⟨b, a, c⟩ = -circumDet p ⟨a, b, c⟩ ∧
    circumDet p ⟨a, c, b⟩ = -circumDet p ⟨a, b, c⟩ ∧
    circumDet p ⟨c, b, a⟩ = -circumDet p ⟨a, b, c⟩ ∧
    ¬(inCircumcircle p ⟨a, b, c⟩ = true ∧ inCircumcircle p ⟨b, a, c⟩ = true) := by
  refine ⟨by simp only [circumDet]; ring, by simp only [circumDet]; ring,
    by simp only [circumDet]; ring, ?_⟩
  rintro ⟨h1, h2⟩
  simp only [inCircumcircle, decide_eq_true_eq, circumEps] at h1 h2
  have hswap : circumDet p ⟨b, a, c⟩ = -circumDet p ⟨a, b, c⟩ := by
    simp only [circumDet]; ring
  rw [hswap] at h2
  linarith

/-- C5: on the empty input the source performs no `InvalidInput` check; it
reads `points[0]` out of bounds, modelled by the engine returning `none`
(the undefined-behaviour marker) rather than any error value. -/
theorem delaunay_empty_input_oob :
    delaunayTriangulation ([] : List Point) = none ∧
    superTriangleOf ([] : List Point) = none :=
  ⟨rfl, rfl⟩

/-- C6: a triangle survives the bad-triangle removal iff no flagged bad
triangle matches it slot by slot (positional equality of `(a,b,c)`), and
the match is not permutation-invariant: a triangle whose vertices are a
permutation of a flagged bad triangle's is not removed. -/
theorem removeBadTriangles_positional_only :
    (∀ (triangles badTriangles : List Triangle) (t : Triangle),
      t ∈ removeBadTriangles triangles badTriangles ↔
        t ∈ triangles ∧
          ¬ ∃ bad ∈ badTriangles, t.a = bad.a ∧ t.b = bad.b ∧ t.c = bad.c) ∧
    removeBadTriangles [⟨⟨1, 0⟩, ⟨0, 0⟩, ⟨0, 1⟩⟩] [⟨⟨0, 0⟩, ⟨1, 0⟩, ⟨0, 1⟩⟩] =
      [⟨⟨1, 0⟩, ⟨0, 0⟩, ⟨0, 1⟩⟩] := by
  constructor
  · intro triangles badTriangles t
    simp [removeBadTriangles, List.mem_filter]
  · norm_num [removeBadTriangles, Point.mk.injEq, Triangle.mk.injEq]

/-- C7: if no triangle of the current triangulation has the inserted point
in its circumcircle, the insertion step adds no triangle and returns the
triangle list unchanged. -/
theorem insertPoint_no_conflict_unchanged (triangles : List Triangle)
    (point : Point) (h : ∀ t ∈ triangles, inCircumcircle point t = false) :
    insertPoint triangles point = triangles := by
  have hbad : badTrianglesOf triangles point = [] := by
    rw [badTrianglesOf, List.filter_eq_nil_iff]
    intro t ht
    simp [h t ht]
  simp only [insertPoint]
  rw [hbad]
  have hu : uniqueEdges (polygonOf []) = [] := rfl
  rw [hu]
  simp [removeBadTriangles]

/-- Witness for C7 at a concrete triangulation and point outside every
circumcircle. -/
theorem insertPoint_no_conflict_unchanged_witness :
    (∀ t ∈ [(⟨⟨0, 0⟩, ⟨1, 0⟩, ⟨0, 1⟩⟩ : Triangle)],
        inCircumcircle ⟨5, 5⟩ t = false) ∧
    insertPoint [(⟨⟨0, 0⟩, ⟨1, 0⟩, ⟨0, 1⟩⟩ : Triangle)] ⟨5, 5⟩ =
      [(⟨⟨0, 0⟩, ⟨1, 0⟩, ⟨0, 1⟩⟩ : Triangle)] :=
  ⟨by norm_num [inCircumcircle, circumDet, circumEps],
    insertPoint_no_conflict_unchanged _ _
      (by norm_num [inCircumcircle, circumDet, circumEps])⟩

/-! ## Characterisation of the unique-edge scan -/

lemma edgeEqB_refl (e : Edge) : edgeEqB e e = true := by
  simp [edgeEqB]

/-- A predicate holds at exactly one list position (in count) iff it fails
at every position other than a given one where it holds. -/
lemma countP_eq_one_iff_unique_pos {α : Type} (p : α → Bool) (l : List α) :
    ∀ i : Fin l.length, p (l.get i) = true →
      (l.countP p = 1 ↔ ∀ j : Fin l.length, j ≠ i → p (l.get j) = false) := by
  induction l with
  | nil => exact fun i => absurd i.isLt (Nat.not_lt_zero i.val)
  | cons a l ih =>
    rintro ⟨iv, hiv⟩ hpi
    rw [List.countP_cons]
    cases iv with
    | zero =>
      have hpa : p a = true := hpi
      rw [if_pos hpa]
      constructor
      · rintro h ⟨jv, hjv⟩ hj
        have hl0 : l.countP p = 0 := by omega
        have hall := List.countP_eq_zero.mp hl0
        cases jv with
        | zero => exact absurd (Fin.ext rfl) hj
        | succ k =>
          have hk : k < l.length := Nat.succ_lt_succ_iff.mp hjv
          show p (l.get ⟨k, hk⟩) = false
          simpa using hall _ (List.get_mem l k hk)
      · intro h
        have hl0 : l.countP p = 0 := by
          rw [List.countP_eq_zero]
          intro x hx
          obtain ⟨⟨k, hk⟩, hget⟩ := List.mem_iff_get.mp hx
          have hne : (⟨k + 1, Nat.succ_lt_succ hk⟩ : Fin (a :: l).length) ≠
              ⟨0, hiv⟩ := by simp [Fin.ext_iff]
          have h2 : p (l.get ⟨k, hk⟩) = false := h _ hne
          rw [← hget]
          simpa using h2
        omega
    | succ ik =>
      have hik : ik < l.length := Nat.succ_lt_succ_iff.mp hiv
      have hpk : p (l.get ⟨ik, hik⟩) = true := hpi
      by_cases hpa : p a = true
      · rw [if_pos hpa]
        have hpos : 0 < l.countP p :=
          List.countP_pos_iff.mpr ⟨_, List.get_mem l ik hik, hpk⟩
        constructor
        · intro h
          omega
        · intro h
          have h0 : p a = false := h ⟨0, Nat.succ_pos _⟩ (by simp [Fin.ext_iff])
          rw [h0] at hpa
          exact absurd hpa (by simp)
      · rw [if_neg hpa]
        have hrec := ih ⟨ik, hik⟩ hpk
        constructor
        · rintro h ⟨jv, hjv⟩ hj
          cases jv with
          | zero => simpa using hpa
          | succ k =>
            have hk : k < l.length := Nat.succ_lt_succ_iff.mp hjv
            have hne : (⟨k, hk⟩ : Fin l.length) ≠ ⟨ik, hik⟩ := by
              simp only [ne_eq, Fin.ext_iff] at hj ⊢
              omega
            have h1 : l.countP p = 1 := by omega
            exact hrec.mp h1 ⟨k, hk⟩ hne
        · intro h
          have h1 : l.countP p = 1 := by
            rw [hrec]
            rintro ⟨jv, hjv⟩ hj
            have hne : (⟨jv + 1, Nat.succ_lt_succ hjv⟩ : Fin (a :: l).length) ≠
                ⟨ik + 1, hiv⟩ := by
              simp only [ne_eq, Fin.ext_iff] at hj ⊢
              omega
            exact h _ hne
          omega

/-- An indexed filterMap over `finRange` whose keep-test is equivalent to a
test on the indexed value is a plain filter. -/
lemma filterMap_finRange_eq_filter_ofFn {α : Type} (q : α → Bool) :
    ∀ (n : ℕ) (g : Fin n → α) (Q : Fin n → Prop) (inst : DecidablePred Q),
      (∀ i, Q i ↔ q (g i) = true) →
      ((List.finRange n).filterMap fun i =>
          @ite _ (Q i) (inst i) (some (g i)) none)
        = (List.ofFn g).filter q := by
  intro n
  induction n with
  | zero => intro g Q inst hQ; rfl
  | succ n ih =>
    intro g Q inst hQ
    have htail : (List.finRange n).filterMap
        ((fun i => @ite _ (Q i) (inst i) (some (g i)) none) ∘ Fin.succ)
        = (List.ofFn fun i => g i.succ).filter q :=
      ih (fun i => g i.succ) (fun i => Q i.succ) (fun i => inst i.succ)
        (fun i => hQ i.succ)
    rw [List.finRange_succ_eq_map, List.ofFn_succ]
    by_cases hq0 : q (g 0) = true
    · have hQ0 : Q 0 := (hQ 0).mpr hq0
      have hf0 : (fun i => @ite _ (Q i) (inst i) (some (g i)) none) 0
          = some (g 0) := by simp [hQ0]
      rw [@List.filterMap_cons_some _ _
          (fun i => @ite _ (Q i) (inst i) (some (g i)) none) 0
          (List.map Fin.succ (List.finRange n)) (g 0) hf0,
        List.filterMap_map, htail, List.filter_cons_of_pos hq0]
    · have hQ0 : ¬ Q 0 := fun h => hq0 ((hQ 0).mp h)
      have hf0 : (fun i => @ite _ (Q i) (inst i) (some (g i)) none) 0
          = none := by simp [hQ0]
      rw [@List.filterMap_cons_none _ _
          (fun i => @ite _ (Q i) (inst i) (some (g i)) none) 0
          (List.map Fin.succ (List.finRange n)) hf0,
        List.filterMap_map, htail, List.filter_cons_of_neg hq0]

/-- The index-based unique-edge scan of the source equals a value-based
filter: an edge is kept iff exactly one position of the working list (its
own, since `Edge::operator==` is reflexive) holds an equal edge. -/
lemma uniqueEdges_eq_filter (l : List Edge) :
    uniqueEdges l =
      l.filter fun e => decide (l.countP (fun e2 => edgeEqB e e2) = 1) := by
  have hpt : ∀ i : Fin l.length,
      (∀ j : Fin l.length, i = j ∨ edgeEqB (l.get i) (l.get j) = false) ↔
        (decide (l.countP (fun e2 => edgeEqB (l.get i) e2) = 1) = true) := by
    intro i
    rw [decide_eq_true_eq,
      countP_eq_one_iff_unique_pos (fun e2 => edgeEqB (l.get i) e2) l i
        (edgeEqB_refl _)]
    constructor
    · intro h j hj
      exact (h j).resolve_left fun hij => hj hij.symm
    · intro h j
      by_cases hij : i = j
      · exact Or.inl hij
      · exact Or.inr (h j fun hji => hij hji.symm)
  have h := filterMap_finRange_eq_filter_ofFn
    (fun e => decide (l.countP (fun e2 => edgeEqB e e2) = 1)) l.length l.get
    (fun i => ∀ j : Fin l.length, i = j ∨ edgeEqB (l.get i) (l.get j) = false)
    (fun i => inferInstance) hpt
  rw [List.ofFn_get] at h
  exact h

/-- C4: during an insertion, an edge of the working list (the edges of all
bad triangles of that step) is kept as a cavity-boundary edge iff it appears
exactly once in that list, counting appearances by undirected edge equality;
and `Edge::operator==` equates two edges iff their endpoint pairs agree as
unordered pairs. -/
theorem uniqueEdges_iff_appears_once (triangles : List Triangle)
    (point : Point) (e : Edge) :
    (e ∈ uniqueEdges (polygonOf (badTrianglesOf triangles point)) ↔
      e ∈ polygonOf (badTrianglesOf triangles point) ∧
        (polygonOf (badTrianglesOf triangles point)).countP
          (fun e2 => edgeEqB e e2) = 1) ∧
    (∀ e1 e2 : Edge, edgeEqB e1 e2 = true ↔
      s(e1.p1, e1.p2) = s(e2.p1, e2.p2)) := by
  constructor
  · rw [uniqueEdges_eq_filter, List.mem_filter, decide_eq_true_eq]
  · intro e1 e2
    rw [Sym2.eq_iff]
    simp [edgeEqB]

/-! ## Frame of the engine over its input vector -/

lemma foldl_pair_insertPoint (l : List Point) :
    ∀ (ps : List Point) (init : List Triangle),
      l.foldl (fun (s : List Point × List Triangle) point =>
          (s.1, insertPoint s.2 point)) (ps, init)
        = (ps, l.foldl insertPoint init) := by
  induction l with
  | nil => intro ps init; rfl
  | cons a l ih => intro ps init; exact ih ps (insertPoint init a)

/-- C9: the engine never mutates its input: the state-passing form returns
the caller's point list unchanged, with the same points in the same order,
alongside the same result as the engine. -/
theorem delaunay_preserves_input_points (points : List Point) :
    (delaunayTriangulationRef points).1 = points ∧
    (delaunayTriangulationRef points).2 = delaunayTriangulation points := by
  cases hst : superTriangleOf points with
  | none => simp [delaunayTriangulationRef, delaunayTriangulation, hst]
  | some st =>
    simp [delaunayTriangulationRef, delaunayTriangulation, hst,
      foldl_pair_insertPoint]

/-! ## Vertex provenance of the output -/

lemma polygonOf_endpoints (bts : List Triangle) (e : Edge)
    (he : e ∈ polygonOf bts) :
    ∃ b ∈ bts, (e.p1 = b.a ∨ e.p1 = b.b ∨ e.p1 = b.c) ∧
      (e.p2 = b.a ∨ e.p2 = b.b ∨ e.p2 = b.c) := by
  induction bts with
  | nil => simp [polygonOf] at he
  | cons t rest ih =>
    simp only [polygonOf, List.mem_cons] at he
    rcases he with h | h | h | h
    · exact ⟨t, List.mem_cons_self _ _, by subst h; simp⟩
    · exact ⟨t, List.mem_cons_self _ _, by subst h; simp⟩
    · exact ⟨t, List.mem_cons_self _ _, by subst h; simp⟩
    · obtain ⟨b, hb, hps⟩ := ih h
      exact ⟨b, List.mem_cons_of_mem _ hb, hps⟩

lemma uniqueEdges_subset (l : List Edge) (e : Edge) (he : e ∈ uniqueEdges l) :
    e ∈ l := by
  rw [uniqueEdges_eq_filter] at he
  exact (List.mem_filter.mp he).1

lemma insertPoint_verts (uni : List Point) (triangles : List Triangle)
    (point : Point)
    (htri : ∀ t ∈ triangles, t.a ∈ uni ∧ t.b ∈ uni ∧ t.c ∈ uni)
    (hpt : point ∈ uni) :
    ∀ t ∈ insertPoint triangles point, t.a ∈ uni ∧ t.b ∈ uni ∧ t.c ∈ uni := by
  intro t ht
  simp only [insertPoint, List.mem_append] at ht
  rcases ht with ht | ht
  · simp only [removeBadTriangles] at ht
    exact htri t (List.mem_filter.mp ht).1
  · rw [List.mem_map] at ht
    obtain ⟨e, he, rfl⟩ := ht
    have he2 : e ∈ polygonOf (badTrianglesOf triangles point) :=
      uniqueEdges_subset _ e he
    obtain ⟨b, hb, hp1, hp2⟩ := polygonOf_endpoints _ e he2
    have hbtri : b ∈ triangles := by
      simp only [badTrianglesOf] at hb
      exact (List.mem_filter.mp hb).1
    obtain ⟨hba, hbb, hbc⟩ := htri b hbtri
    refine ⟨?_, ?_, hpt⟩
    · show e.p1 ∈ uni
      rcases hp1 with h | h | h <;> rw [h] <;> assumption
    · show e.p2 ∈ uni
      rcases hp2 with h | h | h <;> rw [h] <;> assumption

lemma foldl_insertPoint_verts (uni : List Point) :
    ∀ (pts : List Point) (acc : List Triangle),
      (∀ p ∈ pts, p ∈ uni) →
      (∀ t ∈ acc, t.a ∈ uni ∧ t.b ∈ uni ∧ t.c ∈ uni) →
      ∀ t ∈ pts.foldl insertPoint acc,
        t.a ∈ uni ∧ t.b ∈ uni ∧ t.c ∈ uni := by
  intro pts
  induction pts with
  | nil => intro acc _ hacc; exact hacc
  | cons p rest ih =>
    intro acc hp hacc
    rw [List.foldl_cons]
    exact ih _ (fun q hq => hp q (List.mem_cons_of_mem _ hq))
      (insertPoint_verts uni acc p hacc (hp p (List.mem_cons_self _ _)))

/-- C1: every triangle returned by the engine has its three vertices among
the input points, and no vertex of a returned triangle equals any of the
three super-triangle corners. -/
theorem delaunay_output_vertices_from_input (points : List Point)
    (st : Triangle) (result : List Triangle)
    (hst : superTriangleOf points = some st)
    (hres : delaunayTriangulation points = some result)
    (t : Triangle) (ht : t ∈ result) :
    (t.a ∈ points ∧ t.b ∈ points ∧ t.c ∈ points) ∧
    (t.a ≠ st.a ∧ t.a ≠ st.b ∧ t.a ≠ st.c ∧
     t.b ≠ st.a ∧ t.b ≠ st.b ∧ t.b ≠ st.c ∧
     t.c ≠ st.a ∧ t.c ≠ st.b ∧ t.c ≠ st.c) := by
  have hres2 : result = (points.foldl insertPoint [st]).filter
      fun t => !sharesSuperVertex t st := by
    simp only [delaunayTriangulation, hst] at hres
    exact (Option.some.inj hres).symm
  rw [hres2] at ht
  have hmem := List.mem_filter.mp ht
  have hnot : sharesSuperVertex t st = false := by
    simpa using hmem.2
  rw [sharesSuperVertex] at hnot
  have hnine := of_decide_eq_false hnot
  push_neg at hnine
  obtain ⟨hn1, hn2, hn3, hn4, hn5, hn6, hn7, hn8, hn9⟩ := hnine
  have hverts := foldl_insertPoint_verts (st.a :: st.b :: st.c :: points)
    points [st] (fun p hp => by simp [hp])
    (fun t' ht' => by
      simp only [List.mem_singleton] at ht'
      subst ht'
      simp)
    t hmem.1
  obtain ⟨ha, hb, hc⟩ := hverts
  refine ⟨⟨?_, ?_, ?_⟩, hn1, hn4, hn7, hn2, hn5, hn8, hn3, hn6, hn9⟩
  · simp only [List.mem_cons] at ha
    rcases ha with h | h | h | h
    · exact absurd h hn1
    · exact absurd h hn4
    · exact absurd h hn7
    · exact h
  · simp only [List.mem_cons] at hb
    rcases hb with h | h | h | h
    · exact absurd h hn2
    · exact absurd h hn5
    · exact absurd h hn8
    · exact h
  · simp only [List.mem_cons] at hc
    rcases hc with h | h | h | h
    · exact absurd h hn3
    · exact absurd h hn6
    · exact absurd h hn9
    · exact h

/-! ## Super-triangle bounds and containment -/

lemma foldl_min_le_init (f : Point → ℚ) (l : List Point) :
    ∀ init : ℚ, l.foldl (fun m q => min m (f q)) init ≤ init := by
  induction l with
  | nil => intro init; exact le_refl _
  | cons a l ih =>
    intro init
    rw [List.foldl_cons]
    exact le_trans (ih _) (min_le_left _ _)

lemma le_foldl_max_init (f : Point → ℚ) (l : List Point) :
    ∀ init : ℚ, init ≤ l.foldl (fun m q => max m (f q)) init := by
  induction l with
  | nil => intro init; exact le_refl _
  | cons a l ih =>
    intro init
    rw [List.foldl_cons]
    exact le_trans (le_max_left _ _) (ih _)

lemma foldl_min_le_mem (f : Point → ℚ) :
    ∀ (l : List Point) (init : ℚ) (p : Point), p ∈ l →
      l.foldl (fun m q => min m (f q)) init ≤ f p := by
  intro l
  induction l with
  | nil => intro init p hp; simp at hp
  | cons a l ih =>
    intro init p hp
    rw [List.foldl_cons]
    rcases List.mem_cons.mp hp with h | h
    · subst h
      exact le_trans (foldl_min_le_init f l _) (min_le_right _ _)
    · exact ih _ p h

lemma foldl_max_ge_mem (f : Point → ℚ) :
    ∀ (l : List Point) (init : ℚ) (p : Point), p ∈ l →
      f p ≤ l.foldl (fun m q => max m (f q)) init := by
  intro l
  induction l with
  | nil => intro init p hp; simp at hp
  | cons a l ih =>
    intro init p hp
    rw [List.foldl_cons]
    rcases List.mem_cons.mp hp with h | h
    · subst h
      exact le_trans (le_max_right _ _) (le_foldl_max_init f l _)
    · exact ih _ p h

/-- Any point of the bounding box interiorised by margin `D > 0` on each
side lies strictly inside the triangle the source builds from the box. -/
lemma strictlyInside_superShape (a b c d D x y : ℚ)
    (hax : a ≤ x) (hxb : x ≤ b) (hcy : c ≤ y) (hyd : y ≤ d)
    (hdx : b - a ≤ D) (hdy : d - c ≤ D) (hD : 0 < D) :
    strictlyInside ⟨⟨(a + b) / 2 - 20 * D, (c + d) / 2 - D⟩,
                    ⟨(a + b) / 2 + 20 * D, (c + d) / 2 - D⟩,
                    ⟨(a + b) / 2, (c + d) / 2 + 20 * D⟩⟩ ⟨x, y⟩ := by
  unfold strictlyInside
  left
  refine ⟨?_, ?_, ?_⟩
  · nlinarith [mul_pos hD (show (0 : ℚ) < 2 * y - c - d + 2 * D by linarith)]
  · nlinarith [mul_pos hD (show (0 : ℚ) <
      800 * D - 40 * y + 20 * c + 20 * d - 42 * x + 21 * a + 21 * b by
        linarith)]
  · nlinarith [mul_pos hD (show (0 : ℚ) <
      800 * D - 40 * y + 20 * c + 20 * d + 42 * x - 21 * a - 21 * b by
        linarith)]

/-- Counterexample to C3 as stated: on the single-point input `[(0,0)]` the
bounding box is a point, `deltaMax = 0`, and the "super-triangle" collapses
to three copies of the input point, which is then not strictly inside it. -/
theorem superTriangle_degenerate_not_enclosing :
    superTriangleOf [(⟨0, 0⟩ : Point)] = some ⟨⟨0, 0⟩, ⟨0, 0⟩, ⟨0, 0⟩⟩ ∧
    deltaMaxOf ⟨0, 0⟩ [(⟨0, 0⟩ : Point)] = 0 ∧
    ¬ strictlyInside ⟨⟨0, 0⟩, ⟨0, 0⟩, ⟨0, 0⟩⟩ ⟨0, 0⟩ := by
  refine ⟨?_, ?_, ?_⟩
  · norm_num [superTriangleOf, midXOf, midYOf, minXOf, minYOf, maxXOf, maxYOf,
      deltaMaxOf, min_def, max_def]
  · norm_num [deltaMaxOf, minXOf, minYOf, maxXOf, maxYOf, min_def, max_def]
  · unfold strictlyInside
    norm_num

/-- C3 (amended): the super-triangle's corners are at the source's offsets
of `20 * deltaMax` from the bounding-box center (the two base corners are
additionally only `deltaMax` below the center in `y`), and when
`deltaMax > 0` every input point lies strictly inside the super-triangle;
when all points coincide, `deltaMax = 0` and the triangle degenerates. -/
theorem superTriangle_placement_and_encloses (p0 : Point) (rest : List Point)
    (st : Triangle) (hst : superTriangleOf (p0 :: rest) = some st)
    (hd : 0 < deltaMaxOf p0 (p0 :: rest)) :
    (st.a = ⟨midXOf p0 (p0 :: rest) - 20 * deltaMaxOf p0 (p0 :: rest),
             midYOf p0 (p0 :: rest) - deltaMaxOf p0 (p0 :: rest)⟩ ∧
     st.b = ⟨midXOf p0 (p0 :: rest) + 20 * deltaMaxOf p0 (p0 :: rest),
             midYOf p0 (p0 :: rest) - deltaMaxOf p0 (p0 :: rest)⟩ ∧
     st.c = ⟨midXOf p0 (p0 :: rest),
             midYOf p0 (p0 :: rest) + 20 * deltaMaxOf p0 (p0 :: rest)⟩) ∧
    ∀ p ∈ p0 :: rest, strictlyInside st p := by
  have hst2 : st = ⟨⟨midXOf p0 (p0 :: rest) - 20 * deltaMaxOf p0 (p0 :: rest),
        midYOf p0 (p0 :: rest) - deltaMaxOf p0 (p0 :: rest)⟩,
      ⟨midXOf p0 (p0 :: rest) + 20 * deltaMaxOf p0 (p0 :: rest),
        midYOf p0 (p0 :: rest) - deltaMaxOf p0 (p0 :: rest)⟩,
      ⟨midXOf p0 (p0 :: rest),
        midYOf p0 (p0 :: rest) + 20 * deltaMaxOf p0 (p0 :: rest)⟩⟩ := by
    simp only [superTriangleOf] at hst
    exact (Option.some.inj hst).symm
  refine ⟨⟨by rw [hst2], by rw [hst2], by rw [hst2]⟩, ?_⟩
  intro p hp
  have hax : minXOf p0 (p0 :: rest) ≤ p.x := foldl_min_le_mem _ _ _ p hp
  have hxb : p.x ≤ maxXOf p0 (p0 :: rest) := foldl_max_ge_mem _ _ _ p hp
  have hcy : minYOf p0 (p0 :: rest) ≤ p.y := foldl_min_le_mem _ _ _ p hp
  have hyd : p.y ≤ maxYOf p0 (p0 :: rest) := foldl_max_ge_mem _ _ _ p hp
  have hdx : maxXOf p0 (p0 :: rest) - minXOf p0 (p0 :: rest) ≤
      deltaMaxOf p0 (p0 :: rest) := le_max_left _ _
  have hdy : maxYOf p0 (p0 :: rest) - minYOf p0 (p0 :: rest) ≤
      deltaMaxOf p0 (p0 :: rest) := le_max_right _ _
  rw [hst2]
  have := strictlyInside_superShape (minXOf p0 (p0 :: rest))
    (maxXOf p0 (p0 :: rest)) (minYOf p0 (p0 :: rest)) (maxYOf p0 (p0 :: rest))
    (deltaMaxOf p0 (p0 :: rest)) p.x p.y hax hxb hcy hyd hdx hdy hd
  simpa [midXOf, midYOf] using this

/-- Witness for the amended C3 on the two-point input `[(0,0),(1,0)]`. -/
theorem superTriangle_placement_and_encloses_witness :
    superTriangleOf [(⟨0, 0⟩ : Point), ⟨1, 0⟩] =
      some ⟨⟨-39 / 2, -1⟩, ⟨41 / 2, -1⟩, ⟨1 / 2, 20⟩⟩ ∧
    0 < deltaMaxOf ⟨0, 0⟩ [(⟨0, 0⟩ : Point), ⟨1, 0⟩] ∧
    strictlyInside ⟨⟨-39 / 2, -1⟩, ⟨41 / 2, -1⟩, ⟨1 / 2, 20⟩⟩ ⟨0, 0⟩ := by
  have hst : superTriangleOf [(⟨0, 0⟩ : Point), ⟨1, 0⟩] =
      some ⟨⟨-39 / 2, -1⟩, ⟨41 / 2, -1⟩, ⟨1 / 2, 20⟩⟩ := by
    norm_num [superTriangleOf, midXOf, midYOf, minXOf, minYOf, maxXOf, maxYOf,
      deltaMaxOf, min_def, max_def]
  have hd : 0 < deltaMaxOf ⟨0, 0⟩ [(⟨0, 0⟩ : Point), ⟨1, 0⟩] := by
    norm_num [deltaMaxOf, minXOf, minYOf, maxXOf, maxYOf, min_def, max_def]
  exact ⟨hst, hd,
    (superTriangle_placement_and_encloses ⟨0, 0⟩ [⟨1, 0⟩] _ hst hd).2
      ⟨0, 0⟩ (by simp)⟩

/-! ## Concrete scenario A -/

/-- C8: on the input `(0,0), (1,0), (0,1)` the engine returns exactly one
triangle, and its vertices are exactly those three input points (here in
input order, so the vertex set is exactly the input set). -/
theorem delaunay_scenarioA_single_triangle :
    delaunayTriangulation [⟨0, 0⟩, ⟨1, 0⟩, ⟨0, 1⟩] =
      some [⟨⟨0, 0⟩, ⟨1, 0⟩, ⟨0, 1⟩⟩] := by
  norm_num [delaunayTriangulation, superTriangleOf, minXOf, minYOf, maxXOf,
    maxYOf, deltaMaxOf, midXOf, midYOf, insertPoint, badTrianglesOf, polygonOf,
    removeBadTriangles, uniqueEdges_eq_filter, inCircumcircle, circumDet,
    circumEps, edgeEqB, sharesSuperVertex, min_def, max_def, List.filter_cons,
    List.countP_cons, Point.mk.injEq]

/-- Witness for C1 on the concrete scenario-A run. -/
theorem delaunay_output_vertices_from_input_witness :
    superTriangleOf [(⟨0, 0⟩ : Point), ⟨1, 0⟩, ⟨0, 1⟩] =
      some ⟨⟨-39 / 2, -1 / 2⟩, ⟨41 / 2, -1 / 2⟩, ⟨1 / 2, 41 / 2⟩⟩ ∧
    delaunayTriangulation [(⟨0, 0⟩ : Point), ⟨1, 0⟩, ⟨0, 1⟩] =
      some [⟨⟨0, 0⟩, ⟨1, 0⟩, ⟨0, 1⟩⟩] ∧
    (((⟨⟨0, 0⟩, ⟨1, 0⟩, ⟨0, 1⟩⟩ : Triangle).a ∈
        [(⟨0, 0⟩ : Point), ⟨1, 0⟩, ⟨0, 1⟩] ∧
      (⟨⟨0, 0⟩, ⟨1, 0⟩, ⟨0, 1⟩⟩ : Triangle).b ∈
        [(⟨0, 0⟩ : Point), ⟨1, 0⟩, ⟨0, 1⟩] ∧
      (⟨⟨0, 0⟩, ⟨1, 0⟩, ⟨0, 1⟩⟩ : Triangle).c ∈
        [(⟨0, 0⟩ : Point), ⟨1, 0⟩, ⟨0, 1⟩]) ∧
     ((⟨⟨0, 0⟩, ⟨1, 0⟩, ⟨0, 1⟩⟩ : Triangle).a ≠ ⟨-39 / 2, -1 / 2⟩ ∧
      (⟨⟨0, 0⟩, ⟨1, 0⟩, ⟨0, 1⟩⟩ : Triangle).a ≠ ⟨41 / 2, -1 / 2⟩ ∧
      (⟨⟨0, 0⟩, ⟨1, 0⟩, ⟨0, 1⟩⟩ : Triangle).a ≠ ⟨1 / 2, 41 / 2⟩ ∧
      (⟨⟨0, 0⟩, ⟨1, 0⟩, ⟨0, 1⟩⟩ : Triangle).b ≠ ⟨-39 / 2, -1 / 2⟩ ∧
      (⟨⟨0, 0⟩, ⟨1, 0⟩, ⟨0, 1⟩⟩ : Triangle).b ≠ ⟨41 / 2, -1 / 2⟩ ∧
      (⟨⟨0, 0⟩, ⟨1, 0⟩, ⟨0, 1⟩⟩ : Triangle).b ≠ ⟨1 / 2, 41 / 2⟩ ∧
      (⟨⟨0, 0⟩, ⟨1, 0⟩, ⟨0, 1⟩⟩ : Triangle).c ≠ ⟨-39 / 2, -1 / 2⟩ ∧
      (⟨⟨0, 0⟩, ⟨1, 0⟩, ⟨0, 1⟩⟩ : Triangle).c ≠ ⟨41 / 2, -1 / 2⟩ ∧
      (⟨⟨0, 0⟩, ⟨1, 0⟩, ⟨0, 1⟩⟩ : Triangle).c ≠ ⟨1 / 2, 41 / 2⟩)) := by
  have hst : superTriangleOf [(⟨0, 0⟩ : Point), ⟨1, 0⟩, ⟨0, 1⟩] =
      some ⟨⟨-39 / 2, -1 / 2⟩, ⟨41 / 2, -1 / 2⟩, ⟨1 / 2, 41 / 2⟩⟩ := by
    norm_num [superTriangleOf, midXOf, midYOf, minXOf, minYOf, maxXOf, maxYOf,
      deltaMaxOf, min_def, max_def]
  have hres : delaunayTriangulation [(⟨0, 0⟩ : Point), ⟨1, 0⟩, ⟨0, 1⟩] =
      some [⟨⟨0, 0⟩, ⟨1, 0⟩, ⟨0, 1⟩⟩] := by
    norm_num [delaunayTriangulation, superTriangleOf, minXOf, minYOf, maxXOf,
      maxYOf, deltaMaxOf, midXOf, midYOf, insertPoint, badTrianglesOf,
      polygonOf, removeBadTriangles, uniqueEdges_eq_filter, inCircumcircle,
      circumDet, circumEps, edgeEqB, sharesSuperVertex, min_def, max_def,
      List.filter_cons, List.countP_cons, Point.mk.injEq]
  exact ⟨hst, hres,
    delaunay_output_vertices_from_input [⟨0, 0⟩, ⟨1, 0⟩, ⟨0, 1⟩] _ _ hst hres
      ⟨⟨0, 0⟩, ⟨1, 0⟩, ⟨0, 1⟩⟩ (by simp)⟩
